import Mathlib

/-!
Verification development for the hangman server (`server.js`).

The JavaScript source is shallowly embedded:

* JS numbers are modelled as exact rationals extended with `NaN` and signed
  infinities (`JNum`); the floating-point rounding of JS arithmetic is
  idealised away, but `NaN`/`Infinity` propagation, `Math.round`, `Math.min`
  and strict equality (`===`, for which `NaN === NaN` is false) follow the
  JS semantics.
* JS `Set` objects (insertion ordered, deduplicated) are modelled as
  duplicate-free `List Char` values in insertion order; `Set.add` is
  `insSet`, `new Set(iterable)` is `jsDedup`.
* `String.prototype.toLowerCase` is modelled on the ASCII range
  (`jsToLower`); the words and guesses of interest are ASCII.
* The RSA layer of `serializeState`/`decrypt` (`crypto.publicEncrypt` /
  `crypto.privateDecrypt` with the server key pair) is modelled as
  transporting the JSON payload `{word, charsGuessed, turns}` faithfully;
  `serializeGamePayload` produces that payload and `decryptGame` consumes it.
* The highscore sync coroutine `_startHighscoreSync` is modelled as a small
  labelled transition system (`SyncStep`) over the resolved-state of the
  `syncSlot` promise and the number of `writeFile` calls in flight.
-/

namespace Hangman

/-- A JavaScript number: `NaN`, a signed infinity (`inf true` is `+∞`),
or a finite value modelled as an exact rational. -/
inductive JNum where
  | nan : JNum
  | inf : Bool → JNum
  | fin : ℚ → JNum
deriving DecidableEq

/-- JS multiplication on `JNum`: `NaN` is absorbing, `±∞ * 0 = NaN`,
otherwise infinities combine signs and finite values multiply exactly. -/
def jmul : JNum → JNum → JNum
  | .nan, _ => .nan
  | _, .nan => .nan
  | .inf s, .inf t => .inf (s == t)
  | .inf s, .fin q => if q = 0 then .nan else if 0 < q then .inf s else .inf (!s)
  | .fin q, .inf s => if q = 0 then .nan else if 0 < q then .inf s else .inf (!s)
  | .fin a, .fin b => .fin (a * b)

/-- JS division on `JNum`: `NaN` is absorbing, `0/0 = NaN`, `q/0 = ±∞` for
`q ≠ 0`, `q/±∞ = 0`, `±∞/±∞ = NaN`, otherwise exact division. -/
def jdiv : JNum → JNum → JNum
  | .nan, _ => .nan
  | _, .nan => .nan
  | .inf _, .inf _ => .nan
  | .inf s, .fin q => if 0 ≤ q then .inf s else .inf (!s)
  | .fin _, .inf _ => .fin 0
  | .fin a, .fin b =>
      if b = 0 then (if a = 0 then .nan else if 0 < a then .inf true else .inf false)
      else .fin (a / b)

/-- `Math.round`: half-up rounding (`⌊x + 1/2⌋`); `NaN` and infinities pass
through. -/
def jround : JNum → JNum
  | .nan => .nan
  | .inf s => .inf s
  | .fin q => .fin ((⌊q + 1/2⌋ : ℤ) : ℚ)

/-- JS strict equality `===` on numbers: false whenever either side is `NaN`
(in particular `NaN === NaN` is false). -/
def jsEqq : JNum → JNum → Bool
  | .nan, _ => false
  | _, .nan => false
  | .inf s, .inf t => s == t
  | .fin a, .fin b => a == b
  | _, _ => false

/-- JS `<` on numbers: false whenever either side is `NaN`. -/
def jltb : JNum → JNum → Bool
  | .nan, _ => false
  | _, .nan => false
  | .inf s, .inf t => !s && t
  | .inf s, .fin _ => !s
  | .fin _, .inf t => t
  | .fin a, .fin b => decide (a < b)

/-- The `charnum_difficulty` lookup table of the source (27 entries,
indices 0–26). -/
def charnum_difficulty : List ℚ :=
  [1, 26, 325, 2600, 14950, 65780, 230230, 657800, 1562275, 3124550, 5311735,
   7726160, 9657700, 10400600, 9657700, 7726160, 5311735, 3124550, 1562275,
   657800, 230230, 65780, 14950, 2600, 325, 26, 1]

/-- The entries of the `letter_difficulty` object of the source. -/
def letter_difficulty_table : List (Char × ℚ) :=
  [('a', 12.2444), ('b', 67.0241), ('c', 35.9454), ('d', 23.5128),
   ('e', 7.87278), ('f', 44.8833), ('g', 49.6278), ('h', 16.4096),
   ('i', 14.3554), ('j', 653.595), ('k', 129.534), ('l', 24.8447),
   ('m', 41.5628), ('n', 14.817), ('o', 13.3209), ('p', 51.8403),
   ('q', 1052.63), ('r', 16.7029), ('s', 15.8053), ('t', 11.0424),
   ('u', 36.2582), ('v', 102.249), ('w', 42.3729), ('x', 666.667),
   ('y', 50.6586), ('z', 1351.35)]

/-- `letter_difficulty[c] || 1`: property lookup in the table with default
`1` for any character outside it. -/
def letter_difficulty (c : Char) : ℚ :=
  match letter_difficulty_table.find? (fun p => p.1 == c) with
  | some p => p.2
  | none => 1

/-- `Set.prototype.add` on a JS `Set` modelled as an insertion-ordered
duplicate-free list: append the element unless already present. -/
def insSet (l : List Char) (c : Char) : List Char :=
  if c ∈ l then l else l ++ [c]

/-- `new Set(chars)`: deduplicate keeping first occurrences, in order. -/
def jsDedup (l : List Char) : List Char :=
  l.foldl insSet []

/-- ASCII model of `String.prototype.toLowerCase`. -/
def jsToLower (c : Char) : Char :=
  if 'A' ≤ c ∧ c ≤ 'Z' then Char.ofNat (c.toNat + 32) else c

/-- The character class `[a-z0-9]` with the `i` flag, i.e. `[a-zA-Z0-9]`
(used by the guess regex `/^[a-z0-9]$/i` and by `replace(/[^a-z0-9]/gi,'')`). -/
def isGuessChar (c : Char) : Bool :=
  ('a' ≤ c && c ≤ 'z') || ('A' ≤ c && c ≤ 'Z') || ('0' ≤ c && c ≤ '9')

/-- The state of a `HangmanGame` instance: the secret `word`, the set of
correctly guessed characters, and the turn counter. (`charsNeeded` is a
derived field: the constructor always computes it from `word`, and `word`
is never mutated; see `charsNeeded`.) -/
structure Game where
  word : String
  charsGuessed : List Char
  turns : ℕ
deriving DecidableEq

/-- `new Set(word.toLowerCase().replace(/[^a-z0-9]/gi, ''))`. -/
def charsNeededOf (w : String) : List Char :=
  jsDedup ((w.data.map jsToLower).filter isGuessChar)

/-- The `charsNeeded` field of a `HangmanGame` (always the value derived
from the immutable `word`). -/
def charsNeeded (g : Game) : List Char :=
  charsNeededOf g.word

/-- The `HangmanGame` constructor: `charsGuessed = new Set(guessed)`,
`charsNeeded` derived from `word`. -/
def mkHangmanGame (word : String) (guessed : List Char) (turns : ℕ) : Game :=
  ⟨word, jsDedup guessed, turns⟩

/-- `new HangmanGame(word)` as performed by `PUT /api/game`
(defaults `guessed = []`, `turns = 0`). -/
def newGame (w : String) : Game :=
  mkHangmanGame w [] 0

/-- `HangmanGame.won()`: `charsGuessed.size === charsNeeded.size`. -/
def won (g : Game) : Bool :=
  g.charsGuessed.length == (charsNeeded g).length

/-- `bruteforceDifficulty = charnum_difficulty[this.charsNeeded.size]`;
an out-of-range index yields `undefined`, which behaves as `NaN` in the
ensuing multiplication. -/
def bruteforceDifficulty (g : Game) : JNum :=
  match charnum_difficulty.get? (charsNeeded g).length with
  | some v => .fin v
  | none => .nan

/-- The product loop `for (const c of this.charsNeeded) a *= letter_difficulty[c] || 1`
followed by `a /= this.charsNeeded.size`. -/
def avrageLetterDifficulty (g : Game) : JNum :=
  jdiv (.fin ((charsNeeded g).foldl (fun acc c => acc * letter_difficulty c) 1))
       (.fin ((charsNeeded g).length))

/-- `turnCoefficient = this.charsGuessed.size / min(1, this.charsNeeded.size)`
(the source computes `min`, not `max`). -/
def turnCoefficient (g : Game) : JNum :=
  jdiv (.fin (g.charsGuessed.length)) (.fin ((Nat.min 1 (charsNeeded g).length : ℕ) : ℚ))

/-- The turn coefficient as the specification words it:
`|charsGuessed| / max(1, |charsNeeded|)`. Stated only to be compared with
the source's `turnCoefficient`. -/
def turnCoefficient_spec (g : Game) : JNum :=
  .fin ((g.charsGuessed.length : ℚ) / ((Nat.max 1 (charsNeeded g).length : ℕ) : ℚ))

/-- `badGuessPenalty = pow(0.5, this.turns - this.charsGuessed.size)`. -/
def badGuessPenalty (g : Game) : JNum :=
  .fin ((1/2 : ℚ) ^ ((g.turns : ℤ) - (g.charsGuessed.length : ℤ)))

/-- The product
`bruteforceDifficulty * avrageLetterDifficulty * turnCoefficient * badGuessPenalty * 0.0001`
(left associated, as in the source). -/
def rawScore (g : Game) : JNum :=
  jmul (jmul (jmul (jmul (bruteforceDifficulty g) (avrageLetterDifficulty g))
                   (turnCoefficient g))
             (badGuessPenalty g))
       (.fin 0.0001)

/-- `HangmanGame.score()`: `const score = round(...); return score === NaN ? 0 : score;`
(the `=== NaN` comparison is JS strict equality, which is false even for
`NaN`, so the `0` branch is dead). -/
def score (g : Game) : JNum :=
  let s := jround (rawScore g)
  if jsEqq s .nan then .fin 0 else s

/-- The errors the `POST /api/game` handler raises as `HttpException`s. -/
inductive GameError where
  | alreadyWon : GameError
  | invalidGuess : GameError
deriving DecidableEq

/-- The state transition of the `POST /api/game` handler: reject if the
game is won (410), reject unless the guess matches `/^[a-z0-9]$/i` (400),
add the guess to `charsGuessed` exactly when `charsNeeded.has(guess)` (no
lower-casing of the guess), and increment `turns` unconditionally. -/
def applyGuess (g : Game) (guess : String) : Except GameError Game :=
  if won g then .error .alreadyWon
  else
    match guess.data with
    | [c] =>
        if isGuessChar c then
          .ok { g with
                charsGuessed :=
                  if c ∈ charsNeeded g then insSet g.charsGuessed c
                  else g.charsGuessed,
                turns := g.turns + 1 }
        else .error .invalidGuess
    | _ => .error .invalidGuess

/-- Submit a list of single-character guesses in order, stopping at the
first error. -/
def guessAllList : Game → List Char → Except GameError Game
  | g, [] => .ok g
  | g, c :: cs =>
      match applyGuess g (String.mk [c]) with
      | .ok g' => guessAllList g' cs
      | .error e => .error e

/-- The plaintext payload `{word, charsGuessed: Array.from(...), turns}`
that `serializeState` encrypts into the `game` token. -/
structure GamePayload where
  word : String
  charsGuessed : List Char
  turns : ℕ
deriving DecidableEq

/-- The payload of `serializeState(privateKey).game` (the RSA encryption is
modelled as faithful transport of this payload). -/
def serializeGamePayload (g : Game) : GamePayload :=
  ⟨g.word, g.charsGuessed, g.turns⟩

/-- `HangmanGame.decrypt`: parse the payload and rebuild the game through
the constructor. -/
def decryptGame (p : GamePayload) : Game :=
  mkHangmanGame p.word p.charsGuessed p.turns

/-- Game states reachable through the HTTP API: a fresh game from
`PUT /api/game`, or a successful guess via `POST /api/game`. -/
inductive Reachable : Game → Prop where
  | start (w : String) : Reachable (newGame w)
  | step {g g' : Game} (guess : String) :
      Reachable g → applyGuess g guess = .ok g' → Reachable g'

/-- The data-model invariant of §3: correct guesses are needed characters,
and the turn counter dominates the number of correct guesses. -/
def GameInv (g : Game) : Prop :=
  g.charsGuessed ⊆ charsNeeded g ∧ g.charsGuessed.length ≤ g.turns

/-- A leaderboard entry `{score, nick}`. -/
structure HSEntry where
  score : ℤ
  nick : String
deriving DecidableEq

/-- The insertion-index loop of `Highscores.add`:
`let idx = this.value.length; for (; idx > 0 && this.value[idx-1].score < score; idx--);`
i.e. walk from the end of the list past every trailing entry whose score is
strictly below the new score. Rendered by right-to-left recursion: in
`e :: l` the loop walks past `e` (yielding index `0`) exactly when it has
walked past all of `l` and `e.score < s`; otherwise the index lands after
`e`, one past the index computed in `l`. -/
def insIdx : List HSEntry → ℤ → ℕ
  | [], _ => 0
  | e :: l, s =>
      let i := insIdx l s
      if i = 0 ∧ e.score < s then 0 else i + 1

/-- `array.splice(n, 0, e)`: insert `e` at index `n` (appending when `n`
exceeds the length, as JS `splice` does). -/
def spliceIn : List HSEntry → ℕ → HSEntry → List HSEntry
  | l, 0, e => e :: l
  | [], _ + 1, e => [e]
  | a :: l, n + 1, e => a :: spliceIn l n e

/-- The mutation step of `Highscores.add` (after `await this._readyPromise`):
compute the insertion index; if it is below `_max` insert there, truncate to
`_max` entries (`splice(this._max, ...)`) and fire `_syncSignal()`; otherwise
leave the list untouched and fire nothing. The returned boolean records
whether `_syncSignal()` was fired. -/
def addHS (l : List HSEntry) (e : HSEntry) (maxN : ℕ) : List HSEntry × Bool :=
  let idx := insIdx l e.score
  if idx < maxN then ((spliceIn l idx e).take maxN, true) else (l, false)

/-- Insertion without the capacity bound (used to compare `addHS` with a
full stable insertion sort). -/
def insort (l : List HSEntry) (e : HSEntry) : List HSEntry :=
  spliceIn l (insIdx l e.score) e

/-- Stable descending insertion sort built from `insort`. -/
def sortAllHS (es : List HSEntry) : List HSEntry :=
  es.foldl insort []

/-- Descending order by score (ties in any order of appearance). -/
def SortedDesc (l : List HSEntry) : Prop :=
  l.Pairwise (fun a b => b.score ≤ a.score)

/-- The state of the `_startHighscoreSync` coroutine together with the disk:
`pending` is true when the current `syncSlot` promise has been resolved by
`_syncSignal()` but the loop has not yet resumed; `inflight` counts the
`writeFile` operations that have been issued and have not yet completed. -/
structure SyncState where
  pending : Bool
  inflight : ℕ
deriving DecidableEq

/-- The atomic transitions of the sync loop and its environment:
* `signal` — some caller invokes `this._syncSignal()` (resolving the current
  `syncSlot`; resolving an already-resolved promise is a no-op);
* `run` — the loop task resumes after `await syncSlot`: it re-arms the
  signal (`syncSlot = new Promise(...)`) and then calls
  `writeFile(...)` WITHOUT awaiting it, looping back to the next `await`.
  This whole resumption is synchronous JS code, hence one atomic step;
* `finish` — one outstanding `writeFile` completes. -/
inductive SyncStep : SyncState → SyncState → Prop where
  | signal (s : SyncState) : SyncStep s ⟨true, s.inflight⟩
  | run (w : ℕ) : SyncStep ⟨true, w⟩ ⟨false, w + 1⟩
  | finish (p : Bool) (w : ℕ) : SyncStep ⟨p, w + 1⟩ ⟨p, w⟩

/-- States reachable from the start of the sync loop (no pending signal, no
write in flight). -/
inductive SyncReachable : SyncState → Prop where
  | init : SyncReachable ⟨false, 0⟩
  | step {s s' : SyncState} : SyncReachable s → SyncStep s s' → SyncReachable s'

/-! ### Lemmas about the JS `Set` model -/

theorem mem_insSet {l : List Char} {c x : Char} :
    x ∈ insSet l c ↔ x ∈ l ∨ x = c := by
  unfold insSet
  split
  · rename_i h
    constructor
    · exact Or.inl
    · rintro (hx | rfl)
      · exact hx
      · exact h
  · simp

theorem nodup_insSet {l : List Char} {c : Char} (h : l.Nodup) :
    (insSet l c).Nodup := by
  unfold insSet
  split
  · exact h
  · rename_i hc
    simp [List.nodup_append, h, hc]

theorem length_insSet_le (l : List Char) (c : Char) :
    (insSet l c).length ≤ l.length + 1 := by
  unfold insSet
  split
  · omega
  · simp

theorem insSet_subset_of {l s : List Char} {c : Char} (hl : l ⊆ s) (hc : c ∈ s) :
    insSet l c ⊆ s := by
  intro x hx
  rcases mem_insSet.1 hx with h | rfl
  · exact hl h
  · exact hc

theorem mem_foldl_insSet (l : List Char) :
    ∀ (acc : List Char) (x : Char), x ∈ l.foldl insSet acc ↔ x ∈ acc ∨ x ∈ l := by
  induction l with
  | nil => intro acc x; simp
  | cons c l ih =>
      intro acc x
      simp only [List.foldl_cons, ih, mem_insSet, List.mem_cons]
      tauto

theorem nodup_foldl_insSet (l : List Char) :
    ∀ acc : List Char, acc.Nodup → (l.foldl insSet acc).Nodup := by
  induction l with
  | nil => intro acc h; simpa using h
  | cons c l ih => intro acc h; exact ih _ (nodup_insSet h)

theorem foldl_insSet_of_disjoint (l : List Char) :
    ∀ acc : List Char, l.Nodup → (∀ x ∈ l, x ∉ acc) → l.foldl insSet acc = acc ++ l := by
  induction l with
  | nil => intro acc _ _; simp
  | cons c l ih =>
      intro acc hnd hdis
      have hc : c ∉ acc := hdis c (List.mem_cons_self c l)
      have h1 : insSet acc c = acc ++ [c] := by unfold insSet; simp [hc]
      have h2 : ∀ x ∈ l, x ∉ acc ++ [c] := by
        intro x hx
        simp only [List.mem_append, List.mem_singleton]
        rintro (hxa | rfl)
        · exact hdis x (List.mem_cons_of_mem c hx) hxa
        · exact (List.nodup_cons.1 hnd).1 hx
      simp only [List.foldl_cons, h1, ih (acc ++ [c]) (List.nodup_cons.1 hnd).2 h2,
        List.append_assoc, List.singleton_append]

theorem mem_jsDedup {l : List Char} {x : Char} : x ∈ jsDedup l ↔ x ∈ l := by
  simpa using mem_foldl_insSet l [] x

theorem nodup_jsDedup (l : List Char) : (jsDedup l).Nodup :=
  nodup_foldl_insSet l [] (by simp)

theorem jsDedup_eq_self {l : List Char} (h : l.Nodup) : jsDedup l = l := by
  unfold jsDedup
  rw [foldl_insSet_of_disjoint l [] h (by simp)]
  simp

/-! ### Lemmas about the game model -/

theorem isGuessChar_of_mem_charsNeededOf {w : String} {c : Char}
    (h : c ∈ charsNeededOf w) : isGuessChar c = true :=
  (List.mem_filter.1 (mem_jsDedup.1 h)).2

theorem applyGuess_ok_iff {g : Game} {guess : String} {g' : Game} :
    applyGuess g guess = Except.ok g' ↔
      won g = false ∧ ∃ c, guess.data = [c] ∧ isGuessChar c = true ∧
        g' = { g with
               charsGuessed := if c ∈ charsNeeded g then insSet g.charsGuessed c
                               else g.charsGuessed,
               turns := g.turns + 1 } := by
  unfold applyGuess
  cases hw : won g with
  | true => simp
  | false =>
      simp only [Bool.false_eq_true, if_false, eq_self_iff_true, true_and]
      cases hd : guess.data with
      | nil => simp
      | cons c rest =>
          cases rest with
          | nil =>
              dsimp only
              by_cases hc : isGuessChar c
              · rw [if_pos hc]
                constructor
                · intro h
                  refine ⟨c, rfl, hc, ?_⟩
                  cases h
                  rfl
                · rintro ⟨c', hcc, -, rfl⟩
                  cases hcc
                  rfl
              · rw [if_neg hc]
                constructor
                · intro h
                  exact Except.noConfusion h
                · rintro ⟨c', hcc, hc', rfl⟩
                  cases hcc
                  exact absurd hc' hc
          | cons c2 r2 => simp

theorem gameInv_newGame (w : String) : GameInv (newGame w) := by
  constructor
  · show jsDedup [] ⊆ _
    simp [jsDedup]
  · show (jsDedup []).length ≤ 0
    simp [jsDedup]

theorem gameInv_step {g g' : Game} {guess : String} (hI : GameInv g)
    (h : applyGuess g guess = .ok g') : GameInv g' := by
  obtain ⟨-, c, -, -, rfl⟩ := applyGuess_ok_iff.1 h
  constructor
  · by_cases hc : c ∈ charsNeeded g
    · simpa only [if_pos hc] using insSet_subset_of hI.1 hc
    · simpa only [if_neg hc] using hI.1
  · by_cases hc : c ∈ charsNeeded g
    · simp only [if_pos hc]
      exact le_trans (length_insSet_le _ _) (Nat.succ_le_succ hI.2)
    · simp only [if_neg hc]
      exact le_trans hI.2 (Nat.le_succ _)

theorem gameInv_reachable {g : Game} (h : Reachable g) : GameInv g := by
  induction h with
  | start w => exact gameInv_newGame w
  | step guess hr ha ih => exact gameInv_step ih ha

theorem nodup_reachable {g : Game} (h : Reachable g) : g.charsGuessed.Nodup := by
  induction h with
  | start w =>
      show (jsDedup []).Nodup
      simp [jsDedup]
  | step guess hr ha ih =>
      rename_i gp g'
      obtain ⟨-, c, -, -, rfl⟩ := applyGuess_ok_iff.1 ha
      by_cases hc : c ∈ charsNeeded gp
      · simpa only [if_pos hc] using nodup_insSet ih
      · simpa only [if_neg hc] using ih

theorem reachable_needed_nil {g : Game} (h : Reachable g)
    (hn : charsNeeded g = []) : g.turns = 0 := by
  induction h with
  | start w => rfl
  | step guess hr ha ih =>
      rename_i gp g'
      exfalso
      obtain ⟨hw, c, -, -, rfl⟩ := applyGuess_ok_iff.1 ha
      have hn' : charsNeeded gp = [] := hn
      have hsub := (gameInv_reachable hr).1
      rw [hn'] at hsub
      have hg : gp.charsGuessed = [] := List.subset_nil.1 hsub
      unfold won at hw
      rw [hg, hn'] at hw
      simp at hw

/-! ### Claim theorems -/

/-- **C7** (counterexample): the claim says `newGame(w)` is never won, but
for a word with no letters or digits `charsNeeded` is empty and
`won()` compares `0 === 0`, so the fresh game is already won. -/
theorem newGame_no_alnum_already_won : won (newGame "!!") = true := by decide

/-- **C7** (amended): `newGame(w)` has `turns = 0`, an empty `charsGuessed`,
`charsNeeded` equal to the deduplicated lower-cased letters/digits of `w`,
and it is not won whenever that needed-set is non-empty (a word with no
letters or digits starts out already won). -/
theorem newGame_init (w : String) :
    (newGame w).turns = 0
    ∧ (newGame w).charsGuessed = []
    ∧ charsNeeded (newGame w) = jsDedup ((w.data.map jsToLower).filter isGuessChar)
    ∧ (charsNeeded (newGame w) ≠ [] → won (newGame w) = false) := by
  refine ⟨rfl, rfl, rfl, fun h => ?_⟩
  unfold won
  have h0 : (newGame w).charsGuessed = [] := rfl
  rw [h0]
  cases hne : charsNeeded (newGame w) with
  | nil => exact absurd hne h
  | cons a l => simp

/-- Witness for `newGame_init` at the word `"ab"`. -/
theorem newGame_init_witness :
    charsNeeded (newGame "ab") ≠ [] ∧ won (newGame "ab") = false :=
  ⟨by decide, (newGame_init "ab").2.2.2 (by decide)⟩

/-- **C1** (code-bug evidence): the source computes
`charsGuessed.size / min(1, charsNeeded.size)` where the claim (and the
spec's intended contract) has `max`: on the game `⟨"ab", {'a'}, 1⟩` the
code's coefficient is `1` while the claimed formula gives `1/2`, and on an
empty needed-set the code computes `0/0 = NaN` — there is no guard against
a zero divisor — while the claimed formula gives `0`. -/
theorem turnCoefficient_min_not_max :
    turnCoefficient ⟨"ab", ['a'], 1⟩ = .fin 1
    ∧ turnCoefficient_spec ⟨"ab", ['a'], 1⟩ = .fin (1/2)
    ∧ turnCoefficient (newGame "") = .nan
    ∧ turnCoefficient_spec (newGame "") = .fin 0 := by
  have h2 : charsNeeded (⟨"ab", ['a'], 1⟩ : Game) = ['a', 'b'] := by decide
  have h0 : charsNeeded (newGame "") = [] := rfl
  have hg : (newGame "").charsGuessed = [] := rfl
  refine ⟨?_, ?_, ?_, ?_⟩
  · unfold turnCoefficient
    rw [h2]
    norm_num [jdiv]
  · unfold turnCoefficient_spec
    rw [h2]
    norm_num
  · unfold turnCoefficient
    rw [h0, hg]
    norm_num [jdiv]
  · unfold turnCoefficient_spec
    rw [h0, hg]
    norm_num

/-- **C4** (code-bug evidence): on the empty word the raw score is `NaN`
(the `0/0` turn coefficient), and `score()` returns that `NaN` rather than
the claimed non-negative integer `0`, because its guard `score === NaN`
uses JS strict equality, which is false even when `score` is `NaN`. -/
theorem score_nan_escapes : score (newGame "") = JNum.nan := by
  have h0 : charsNeeded (newGame "") = [] := rfl
  have hB : bruteforceDifficulty (newGame "") = .fin 1 := rfl
  have hA : avrageLetterDifficulty (newGame "") = .inf true := by
    unfold avrageLetterDifficulty
    rw [h0]
    norm_num [jdiv]
  have hg0 : (newGame "").charsGuessed = [] := rfl
  have hT : turnCoefficient (newGame "") = .nan := by
    unfold turnCoefficient
    rw [h0, hg0]
    norm_num [jdiv]
  unfold score rawScore
  rw [hB, hA, hT]
  norm_num [jmul, jround, jsEqq]

/-- **C9** (code-bug evidence): the sync loop calls `writeFile` without
awaiting it, so signal → resume → signal → resume reaches the state
`⟨pending = false, inflight = 2⟩` with two `writeFile` operations
simultaneously in flight, contradicting the claimed (and, in the source's
own comment, promised) "at most one write in flight at a time". Note that
in the model a write can only ever be issued by a `run` step, which
requires a pending signal and re-arms it — those parts of the claim the
code does satisfy; the missing `await` on the issued write is the slip. -/
theorem sync_two_writes_in_flight : SyncReachable ⟨false, 2⟩ := by
  have h1 : SyncReachable ⟨true, 0⟩ :=
    SyncReachable.step SyncReachable.init (SyncStep.signal _)
  have h2 : SyncReachable ⟨false, 1⟩ := SyncReachable.step h1 (SyncStep.run 0)
  have h3 : SyncReachable ⟨true, 1⟩ := SyncReachable.step h2 (SyncStep.signal _)
  exact SyncReachable.step h3 (SyncStep.run 1)

/-- **C10**: when the computed insertion index is at least the capacity,
`Highscores.add` returns with the entries untouched and without firing
`_syncSignal()` (the boolean in the model), so a dropped submission never
triggers a disk write. -/
theorem addHS_drop_frame (l : List HSEntry) (e : HSEntry) (maxN : ℕ)
    (h : maxN ≤ insIdx l e.score) : addHS l e maxN = (l, false) := by
  simp only [addHS]
  rw [if_neg (Nat.not_lt.2 h)]

/-- Witness for `addHS_drop_frame`: a score of 3 does not displace the
single entry of a full capacity-1 board. -/
theorem addHS_drop_frame_witness :
    addHS [⟨5, "ann"⟩] ⟨3, "bob"⟩ 1 = ([⟨5, "ann"⟩], false) :=
  addHS_drop_frame _ _ _ (by decide)

/-- **C2**: for every reachable game state, decoding the encoded session
payload reconstructs the same game: the constructor re-derives
`charsNeeded` from the transmitted word, and `new Set(Array.from(s))`
reproduces the guessed set because it is duplicate-free. (The RSA
encrypt/decrypt pair of the session codec is modelled as faithful transport
of the serialized payload.) -/
theorem decode_encode_roundtrip {g : Game} (h : Reachable g) :
    decryptGame (serializeGamePayload g) = g := by
  show mkHangmanGame g.word g.charsGuessed g.turns = g
  unfold mkHangmanGame
  rw [jsDedup_eq_self (nodup_reachable h)]

/-- Witness for `decode_encode_roundtrip` on the game reached by guessing
`'h'` in a fresh game on the word `"hi"`. -/
theorem decode_encode_roundtrip_witness :
    decryptGame (serializeGamePayload ⟨"hi", ['h'], 1⟩) = ⟨"hi", ['h'], 1⟩ :=
  decode_encode_roundtrip (Reachable.step "h" (Reachable.start "hi") rfl)

/-- **C6**: every reachable game satisfies `charsGuessed ⊆ charsNeeded` and
`turns ≥ |charsGuessed|`, and every single successful guess step preserves
these invariants. -/
theorem game_invariants :
    (∀ g : Game, Reachable g → GameInv g)
    ∧ (∀ (g g' : Game) (guess : String),
        GameInv g → applyGuess g guess = .ok g' → GameInv g') :=
  ⟨fun _ h => gameInv_reachable h, fun _ _ _ hI h => gameInv_step hI h⟩

/-- Witness for `game_invariants` on the game reached by guessing `'a'` in
a fresh game on the word `"ab"`. -/
theorem game_invariants_witness : GameInv (⟨"ab", ['a'], 1⟩ : Game) :=
  game_invariants.1 _ (Reachable.step "a" (Reachable.start "ab") rfl)

/-- **C3** (counterexample): the claim says guesses are matched
case-insensitively, so that guessing `"A"` on the word `"a"` would win; in
the code the guess `"A"` passes the validation regex but
`charsNeeded.has('A')` is false (the guess is never lower-cased), so the
guess is accepted, not credited, and the game is not won. -/
theorem uppercase_guess_not_credited :
    applyGuess (newGame "a") "A" = .ok ⟨"a", [], 1⟩ ∧ won ⟨"a", [], 1⟩ = false :=
  ⟨rfl, rfl⟩

theorem guessAllList_needed (w : String) :
    ∀ (rest pre : List Char) (t : ℕ),
      charsNeededOf w = pre ++ rest → (pre ++ rest).Nodup →
      guessAllList ⟨w, pre, t⟩ rest = .ok ⟨w, pre ++ rest, t + rest.length⟩ := by
  intro rest
  induction rest with
  | nil =>
      intro pre t hn hd
      simp [guessAllList]
  | cons c cs ih =>
      intro pre t hn hd
      have hwonf : won (⟨w, pre, t⟩ : Game) = false := by
        unfold won
        have hcn : charsNeeded (⟨w, pre, t⟩ : Game) = pre ++ c :: cs := hn
        rw [hcn, beq_eq_false_iff_ne]
        simp only [List.length_append, List.length_cons]
        omega
      have hc_mem : c ∈ charsNeededOf w := by
        rw [hn]
        exact List.mem_append_right _ (List.mem_cons_self _ _)
      have hgc : isGuessChar c = true := isGuessChar_of_mem_charsNeededOf hc_mem
      have hcp : c ∉ pre := by
        intro hmem
        exact (List.disjoint_of_nodup_append hd) hmem (List.mem_cons_self _ _)
      have hstep : applyGuess ⟨w, pre, t⟩ (String.mk [c]) = .ok ⟨w, pre ++ [c], t + 1⟩ := by
        apply applyGuess_ok_iff.2
        refine ⟨hwonf, c, rfl, hgc, ?_⟩
        have hcn : c ∈ charsNeeded (⟨w, pre, t⟩ : Game) := hc_mem
        rw [if_pos hcn]
        unfold insSet
        rw [if_neg hcp]
      have hassoc : (pre ++ [c]) ++ cs = pre ++ c :: cs := by simp
      have hrec := ih (pre ++ [c]) (t + 1)
        (by rw [hn, hassoc]) (by rw [hassoc]; exact hd)
      show guessAllList _ (c :: cs) = _
      unfold guessAllList
      rw [hstep]
      dsimp only
      rw [hrec, hassoc]
      have : t + 1 + cs.length = t + (c :: cs).length := by
        simp only [List.length_cons]
        omega
      rw [this]

/-- **C3** (amended): the guess comparison is case-SENSITIVE: a guess is
credited exactly when it is literally contained in `charsNeeded` (whose
elements are lower-case). Submitting each distinct needed character once,
in lower case, always ends with `won = true`; a valid guess that is not
literally in `charsNeeded` — in particular the upper-case form of a needed
letter — is accepted but only increments the turn counter. -/
theorem lowercase_guesses_win (w : String) :
    guessAllList (newGame w) (charsNeededOf w) =
      .ok ⟨w, charsNeededOf w, (charsNeededOf w).length⟩
    ∧ won ⟨w, charsNeededOf w, (charsNeededOf w).length⟩ = true
    ∧ ∀ (g : Game) (c : Char), won g = false → isGuessChar c = true →
        c ∉ charsNeeded g →
        applyGuess g (String.mk [c]) = .ok ⟨g.word, g.charsGuessed, g.turns + 1⟩ := by
  refine ⟨?_, ?_, ?_⟩
  · have hng : (newGame w) = (⟨w, [], 0⟩ : Game) := rfl
    have h := guessAllList_needed w (charsNeededOf w) [] 0 (by simp)
      (by simpa using nodup_jsDedup _)
    rw [hng]
    simpa using h
  · unfold won
    simp only [beq_iff_eq]
    rfl
  · intro g c hw hgc hc
    apply applyGuess_ok_iff.2
    refine ⟨hw, c, rfl, hgc, ?_⟩
    rw [if_neg hc]

/-- Witness for `lowercase_guesses_win`: in the mid-game state on `"ab"`
with `'a'` guessed, the upper-case guess `"B"` is legal but only increments
the turn counter. -/
theorem lowercase_guesses_win_witness :
    applyGuess (⟨"ab", ['a'], 1⟩ : Game) (String.mk ['B']) = .ok ⟨"ab", ['a'], 2⟩ :=
  (lowercase_guesses_win "ab").2.2 ⟨"ab", ['a'], 1⟩ 'B' (by decide) (by decide) (by decide)

/-! ### Lemmas about the highscore store -/

theorem insIdx_le_length (l : List HSEntry) (s : ℤ) : insIdx l s ≤ l.length := by
  induction l with
  | nil => exact Nat.le_refl 0
  | cons e l ih =>
      simp only [insIdx, List.length_cons]
      split
      · omega
      · omega

theorem insIdx_eq_countP {l : List HSEntry} (hs : SortedDesc l) (s : ℤ) :
    insIdx l s = l.countP (fun x => decide (s ≤ x.score)) := by
  induction l with
  | nil => rfl
  | cons e l ih =>
      have hsl : SortedDesc l := (List.pairwise_cons.1 hs).2
      have hhead : ∀ b ∈ l, b.score ≤ e.score := (List.pairwise_cons.1 hs).1
      simp only [insIdx, List.countP_cons]
      by_cases hes : e.score < s
      · have hc0 : l.countP (fun x => decide (s ≤ x.score)) = 0 := by
          rw [List.countP_eq_zero]
          intro a ha
          simp only [decide_eq_true_eq]
          exact fun hle => absurd (le_trans hle (hhead a ha)) (not_le.2 hes)
        have hi0 : insIdx l s = 0 := by rw [ih hsl, hc0]
        rw [if_pos ⟨hi0, hes⟩, hc0, if_neg]
        simp only [decide_eq_true_eq]
        exact not_le.2 hes
      · rw [if_neg (by rintro ⟨-, h⟩; exact hes h), ih hsl,
          if_pos (by simpa using not_lt.1 hes)]

theorem mem_spliceIn {x e : HSEntry} :
    ∀ (l : List HSEntry) (n : ℕ), x ∈ spliceIn l n e ↔ x = e ∨ x ∈ l := by
  intro l
  induction l with
  | nil => intro n; cases n <;> simp [spliceIn]
  | cons a l ih =>
      intro n
      cases n with
      | zero => simp [spliceIn]
      | succ m =>
          simp only [spliceIn, List.mem_cons, ih m]
          tauto

theorem insIdx_zero_of_head_lt {l : List HSEntry} (hs : SortedDesc l) {a : HSEntry}
    {s : ℤ} (hall : ∀ b ∈ l, b.score ≤ a.score) (ha : a.score < s) :
    insIdx l s = 0 := by
  rw [insIdx_eq_countP hs, List.countP_eq_zero]
  intro b hb
  simp only [decide_eq_true_eq]
  exact fun hle => absurd (le_trans hle (hall b hb)) (not_le.2 ha)

theorem insort_sorted {l : List HSEntry} (hs : SortedDesc l) (e : HSEntry) :
    SortedDesc (insort l e) := by
  induction l with
  | nil =>
      show SortedDesc [e]
      simp [SortedDesc]
  | cons a l ih =>
      have hsl : SortedDesc l := (List.pairwise_cons.1 hs).2
      have hhead : ∀ b ∈ l, b.score ≤ a.score := (List.pairwise_cons.1 hs).1
      unfold insort
      simp only [insIdx]
      split
      · rename_i hcond
        show SortedDesc (e :: a :: l)
        rw [SortedDesc, List.pairwise_cons]
        refine ⟨fun b hb => ?_, hs⟩
        rcases List.mem_cons.1 hb with rfl | hbl
        · exact le_of_lt hcond.2
        · exact le_trans (hhead b hbl) (le_of_lt hcond.2)
      · rename_i hcond
        show SortedDesc (a :: spliceIn l (insIdx l e.score) e)
        rw [SortedDesc, List.pairwise_cons]
        refine ⟨fun b hb => ?_, ih hsl⟩
        rcases (mem_spliceIn l _).1 hb with rfl | hbl
        · by_cases hae : a.score < b.score
          · exact absurd ⟨insIdx_zero_of_head_lt hsl hhead hae, hae⟩ hcond
          · exact not_lt.1 hae
        · exact hhead b hbl

theorem spliceIn_perm :
    ∀ (l : List HSEntry) (n : ℕ) (e : HSEntry), List.Perm (spliceIn l n e) (e :: l) := by
  intro l
  induction l with
  | nil => intro n e; cases n <;> exact List.Perm.refl _
  | cons a l ih =>
      intro n e
      cases n with
      | zero => exact List.Perm.refl _
      | succ m =>
          exact List.Perm.trans (List.Perm.cons a (ih m e)) (List.Perm.swap e a l)

theorem sortAllHS_aux :
    ∀ (es acc : List HSEntry), SortedDesc acc →
      SortedDesc (es.foldl insort acc) ∧ List.Perm (es.foldl insort acc) (acc ++ es) := by
  intro es
  induction es with
  | nil => intro acc h; exact ⟨h, by simp⟩
  | cons e es ih =>
      intro acc h
      simp only [List.foldl_cons]
      obtain ⟨h1, h2⟩ := ih (insort acc e) (insort_sorted h e)
      refine ⟨h1, List.Perm.trans h2 ?_⟩
      exact List.Perm.trans ((spliceIn_perm acc _ e).append_right es) List.perm_middle.symm

theorem take_spliceIn_of_le :
    ∀ (l : List HSEntry) (n : ℕ) (e : HSEntry) (m : ℕ),
      m ≤ n → n ≤ l.length → (spliceIn l n e).take m = l.take m := by
  intro l
  induction l with
  | nil =>
      intro n e m hmn hn
      have hn0 : n = 0 := Nat.le_zero.1 (by simpa using hn)
      subst hn0
      have hm0 : m = 0 := Nat.le_zero.1 hmn
      subst hm0
      rfl
  | cons a l ih =>
      intro n e m hmn hn
      cases n with
      | zero =>
          have hm0 : m = 0 := Nat.le_zero.1 hmn
          subst hm0
          rfl
      | succ k =>
          cases m with
          | zero => rfl
          | succ j =>
              show (a :: spliceIn l k e).take (j + 1) = (a :: l).take (j + 1)
              simp only [List.take_succ_cons]
              rw [ih k e j (Nat.succ_le_succ_iff.1 hmn)
                (Nat.succ_le_succ_iff.1 (by simpa using hn))]

theorem take_succ_spliceIn :
    ∀ (l : List HSEntry) (n : ℕ) (e : HSEntry) (j : ℕ),
      n ≤ j → (spliceIn l n e).take (j + 1) = spliceIn (l.take j) n e := by
  intro l
  induction l with
  | nil =>
      intro n e j hnj
      cases n <;> simp [spliceIn]
  | cons a l ih =>
      intro n e j hnj
      cases n with
      | zero =>
          simp only [spliceIn]
          rw [List.take_succ_cons]
      | succ k =>
          cases j with
          | zero => omega
          | succ i =>
              show (a :: spliceIn l k e).take (i + 1 + 1)
                  = spliceIn ((a :: l).take (i + 1)) (k + 1) e
              rw [List.take_succ_cons, List.take_succ_cons]
              show a :: (spliceIn l k e).take (i + 1) = a :: spliceIn (l.take i) k e
              rw [ih k e i (Nat.succ_le_succ_iff.1 hnj)]

theorem insIdx_take {l : List HSEntry} (hs : SortedDesc l) (s : ℤ) :
    ∀ m : ℕ, insIdx (l.take m) s = Nat.min (insIdx l s) m := by
  induction l with
  | nil => intro m; simp [insIdx]
  | cons a l ih =>
      intro m
      have hsl : SortedDesc l := (List.pairwise_cons.1 hs).2
      have hhead : ∀ b ∈ l, b.score ≤ a.score := (List.pairwise_cons.1 hs).1
      cases m with
      | zero => simp [insIdx]
      | succ j =>
          rw [List.take_succ_cons]
          by_cases has : a.score < s
          · have h0 : insIdx l s = 0 := insIdx_zero_of_head_lt hsl hhead has
            have h0t : insIdx (l.take j) s = 0 := by
              rw [ih hsl j, h0]
              simp
            show insIdx (a :: l.take j) s = Nat.min (insIdx (a :: l) s) (j + 1)
            simp only [insIdx]
            rw [if_pos ⟨h0t, has⟩, if_pos ⟨h0, has⟩]
            simp
          · show insIdx (a :: l.take j) s = Nat.min (insIdx (a :: l) s) (j + 1)
            simp only [insIdx]
            rw [if_neg (by rintro ⟨-, h⟩; exact has h),
              if_neg (by rintro ⟨-, h⟩; exact has h), ih hsl j]
            exact (Nat.succ_min_succ _ _).symm

theorem addHS_fst_take {l : List HSEntry} (e : HSEntry) {m : ℕ}
    (hlen : l.length ≤ m) : (addHS l e m).1 = (insort l e).take m := by
  unfold addHS insort
  dsimp only
  split
  · rfl
  · rename_i hge
    rw [take_spliceIn_of_le l _ e m (Nat.not_lt.1 hge) (insIdx_le_length l e.score),
      List.take_of_length_le hlen]

theorem take_insort_take {l : List HSEntry} (hs : SortedDesc l) (e : HSEntry) (m : ℕ) :
    (insort (l.take m) e).take m = (insort l e).take m := by
  unfold insort
  rw [insIdx_take hs e.score m]
  by_cases hlt : insIdx l e.score < m
  · rw [show Nat.min (insIdx l e.score) m = insIdx l e.score from
      Nat.min_eq_left (le_of_lt hlt)]
    obtain ⟨j, rfl⟩ : ∃ j, m = j + 1 := ⟨m - 1, by omega⟩
    rw [take_succ_spliceIn _ _ _ j (by omega), take_succ_spliceIn _ _ _ j (by omega),
      List.take_take]
    rw [show min j (j + 1) = j from Nat.min_eq_left (by omega)]
  · have hge : m ≤ insIdx l e.score := Nat.not_lt.1 hlt
    have hml : m ≤ l.length := le_trans hge (insIdx_le_length l e.score)
    have hlenm : m ≤ (l.take m).length := by
      rw [List.length_take]
      omega
    rw [show Nat.min (insIdx l e.score) m = m from Nat.min_eq_right hge,
      take_spliceIn_of_le _ _ _ _ (Nat.le_refl m) hlenm,
      take_spliceIn_of_le _ _ _ _ hge (insIdx_le_length l e.score),
      List.take_take]
    rw [show min m m = m from Nat.min_eq_left (Nat.le_refl m)]

theorem foldl_addHS_take (m : ℕ) :
    ∀ (es L : List HSEntry), SortedDesc L →
      es.foldl (fun l x => (addHS l x m).1) (L.take m) = (es.foldl insort L).take m := by
  intro es
  induction es with
  | nil => intro L h; rfl
  | cons e es ih =>
      intro L h
      simp only [List.foldl_cons]
      rw [addHS_fst_take e (by rw [List.length_take]; exact Nat.min_le_left _ _),
        take_insort_take h e m]
      exact ih (insort L e) (insort_sorted h e)

/-- **C5**: `Highscores.add` inserts after all entries with score ≥ the new
score (on a sorted board the insertion index is exactly the count of such
entries — stable tie-break), silently drops the entry leaving the list
unchanged and the signal unfired when that index reaches the capacity, and
otherwise inserts and truncates to capacity; consequently folding any 7
submissions into an empty capacity-5 store leaves exactly the first 5
entries of the stable descending sort of those submissions. -/
theorem highscore_add_spec (l : List HSEntry) (e : HSEntry) (m : ℕ)
    (hs : SortedDesc l) :
    insIdx l e.score = l.countP (fun x => decide (e.score ≤ x.score))
    ∧ (m ≤ insIdx l e.score → addHS l e m = (l, false))
    ∧ (insIdx l e.score < m →
        addHS l e m = ((spliceIn l (insIdx l e.score) e).take m, true))
    ∧ (∀ es : List HSEntry, es.length = 7 →
        es.foldl (fun acc x => (addHS acc x 5).1) [] = (sortAllHS es).take 5
        ∧ SortedDesc (sortAllHS es) ∧ List.Perm (sortAllHS es) es) := by
  refine ⟨insIdx_eq_countP hs e.score,
    fun h => by simp only [addHS]; rw [if_neg (Nat.not_lt.2 h)],
    fun h => by simp only [addHS]; rw [if_pos h],
    fun es _ => ?_⟩
  have h0 := foldl_addHS_take 5 es [] (List.Pairwise.nil)
  obtain ⟨hsorted, hperm⟩ := sortAllHS_aux es [] (List.Pairwise.nil)
  exact ⟨by simpa using h0, hsorted, by simpa using hperm⟩

/-- Witness for `highscore_add_spec`: a score of 9 lands between 10 and 8
on a sorted two-entry board with capacity 5. -/
theorem highscore_add_spec_witness :
    addHS [⟨10, "ann"⟩, ⟨8, "bob"⟩] ⟨9, "cat"⟩ 5
      = ([⟨10, "ann"⟩, ⟨9, "cat"⟩, ⟨8, "bob"⟩], true) :=
  ((highscore_add_spec [⟨10, "ann"⟩, ⟨8, "bob"⟩] ⟨9, "cat"⟩ 5
      (by simp [SortedDesc])).2.2.1 (by decide)).trans (by decide)

/-! ### Lemmas about the scoring pipeline -/

theorem jmul_nan_left (x : JNum) : jmul .nan x = .nan := by cases x <;> rfl

theorem jmul_fin_pos_assoc (x : JNum) {a b : ℚ} (ha : 0 < a) (hb : 0 < b) :
    jmul (jmul x (.fin a)) (.fin b) = jmul x (.fin (a * b)) := by
  cases x with
  | nan => rfl
  | inf s =>
      have h1 : jmul (.inf s) (.fin a) = .inf s := by
        simp only [jmul]
        rw [if_neg (ne_of_gt ha), if_pos ha]
      have h2 : jmul (.inf s) (.fin b) = .inf s := by
        simp only [jmul]
        rw [if_neg (ne_of_gt hb), if_pos hb]
      have h3 : jmul (.inf s) (.fin (a * b)) = .inf s := by
        simp only [jmul]
        rw [if_neg (ne_of_gt (mul_pos ha hb)), if_pos (mul_pos ha hb)]
      rw [h1, h2, h3]
  | fin q =>
      simp only [jmul]
      rw [mul_assoc]

theorem letter_difficulty_pos (c : Char) : 0 < letter_difficulty c := by
  unfold letter_difficulty
  cases h : letter_difficulty_table.find? (fun p => p.1 == c) with
  | none => norm_num
  | some p =>
      have hp : p ∈ letter_difficulty_table := List.mem_of_find?_eq_some h
      have hall : ∀ q ∈ letter_difficulty_table, 0 < q.2 := by
        intro q hq
        fin_cases hq <;> norm_num
      exact hall p hp

theorem foldl_letter_pos (l : List Char) :
    ∀ {q : ℚ}, 0 < q → 0 < l.foldl (fun acc c => acc * letter_difficulty c) q := by
  induction l with
  | nil => intro q hq; simpa using hq
  | cons c l ih => intro q hq; exact ih (mul_pos hq (letter_difficulty_pos c))

theorem charnum_pos {n : ℕ} {v : ℚ} (h : charnum_difficulty.get? n = some v) :
    0 < v := by
  have hall : ∀ x ∈ charnum_difficulty, 0 < x := by decide
  exact hall v (List.get?_mem h)

theorem turnCoefficient_of_pos {g : Game} (hn : 1 ≤ (charsNeeded g).length) :
    turnCoefficient g = .fin (g.charsGuessed.length) := by
  unfold turnCoefficient
  rw [show Nat.min 1 (charsNeeded g).length = 1 from Nat.min_eq_left hn]
  simp only [jdiv, Nat.cast_one]
  rw [if_neg one_ne_zero, div_one]

theorem avrage_of_pos {g : Game} (hn : 1 ≤ (charsNeeded g).length) :
    avrageLetterDifficulty g =
      .fin ((charsNeeded g).foldl (fun acc c => acc * letter_difficulty c) 1
        / (charsNeeded g).length) := by
  unfold avrageLetterDifficulty
  simp only [jdiv]
  rw [if_neg (Nat.cast_ne_zero.2 (by omega))]

theorem score_eq_fin_of {g : Game} {q : ℚ} (hfin : rawScore g = .fin q) :
    score g = .fin ((⌊q + 1/2⌋ : ℤ) : ℚ) := by
  unfold score
  rw [hfin]
  rfl

theorem score_eq_nan_of {g : Game} (hnan : rawScore g = .nan) : score g = .nan := by
  unfold score
  rw [hnan]
  rfl

theorem rawScore_eval {g : Game} {v : ℚ}
    (hget : charnum_difficulty.get? (charsNeeded g).length = some v)
    (hn : 1 ≤ (charsNeeded g).length) :
    rawScore g = .fin (v
      * ((charsNeeded g).foldl (fun acc c => acc * letter_difficulty c) 1
          / (charsNeeded g).length)
      * (g.charsGuessed.length)
      * ((1/2 : ℚ) ^ ((g.turns : ℤ) - (g.charsGuessed.length : ℤ)))
      * 0.0001) := by
  unfold rawScore
  rw [show bruteforceDifficulty g = .fin v from by unfold bruteforceDifficulty; rw [hget],
    avrage_of_pos hn, turnCoefficient_of_pos hn]
  rfl

/-- **C8**: removing one wrong guess from a won, reachable game halves the
raw score back (`rawScore g = rawScore g' * 0.5`), and the game with the
extra wrong guess never scores higher than the one without it. The
"strictly lower" part of the claim fails after rounding — see the
counterexample `wrong_guess_score_not_strictly_lower`. -/
theorem wrong_guess_halves_raw_score {g : Game} (hr : Reachable g)
    (hw : won g = true) (hk : g.charsGuessed.length < g.turns) :
    rawScore g = jmul (rawScore ⟨g.word, g.charsGuessed, g.turns - 1⟩) (.fin (1/2))
    ∧ jltb (score ⟨g.word, g.charsGuessed, g.turns - 1⟩) (score g) = false := by
  have hn : 1 ≤ (charsNeeded g).length := by
    rcases Nat.eq_zero_or_pos (charsNeeded g).length with h0 | h1
    · have hnil : charsNeeded g = [] := List.eq_nil_of_length_eq_zero h0
      have ht0 := reachable_needed_nil hr hnil
      omega
    · exact h1
  have ht1 : 1 ≤ g.turns := by omega
  have hgn' : 1 ≤ (charsNeeded (⟨g.word, g.charsGuessed, g.turns - 1⟩ : Game)).length := hn
  have hexp : ((⟨g.word, g.charsGuessed, g.turns - 1⟩ : Game).turns : ℤ)
      - ((⟨g.word, g.charsGuessed, g.turns - 1⟩ : Game).charsGuessed.length : ℤ)
      = ((g.turns : ℤ) - 1) - (g.charsGuessed.length : ℤ) := by
    show ((g.turns - 1 : ℕ) : ℤ) - (g.charsGuessed.length : ℤ) = _
    omega
  have hsplit : ((1/2 : ℚ) ^ ((g.turns : ℤ) - (g.charsGuessed.length : ℤ)))
      = ((1/2 : ℚ) ^ (((g.turns : ℤ) - 1) - (g.charsGuessed.length : ℤ))) * (1/2) := by
    rw [show (g.turns : ℤ) - (g.charsGuessed.length : ℤ)
        = (((g.turns : ℤ) - 1) - (g.charsGuessed.length : ℤ)) + 1 from by ring,
      zpow_add_one₀ (by norm_num : (1/2 : ℚ) ≠ 0)]
  have hp'pos : (0:ℚ) < (1/2 : ℚ) ^ (((g.turns : ℤ) - 1) - (g.charsGuessed.length : ℤ)) :=
    zpow_pos (by norm_num) _
  cases hget : charnum_difficulty.get? (charsNeeded g).length with
  | none =>
      have hBn : bruteforceDifficulty g = .nan := by
        unfold bruteforceDifficulty
        rw [hget]
      have hrawn : rawScore g = .nan := by
        unfold rawScore
        rw [hBn, jmul_nan_left, jmul_nan_left, jmul_nan_left, jmul_nan_left]
      have hrawn' : rawScore ⟨g.word, g.charsGuessed, g.turns - 1⟩ = .nan := by
        unfold rawScore
        rw [show bruteforceDifficulty (⟨g.word, g.charsGuessed, g.turns - 1⟩ : Game) = .nan
          from hBn, jmul_nan_left, jmul_nan_left, jmul_nan_left, jmul_nan_left]
      refine ⟨?_, ?_⟩
      · rw [hrawn, hrawn']
        rfl
      · rw [score_eq_nan_of hrawn, score_eq_nan_of hrawn']
        rfl
  | some v =>
      have hvpos : 0 < v := charnum_pos hget
      have hApos : 0 < (charsNeeded g).foldl (fun acc c => acc * letter_difficulty c) 1
          / (charsNeeded g).length :=
        div_pos (foldl_letter_pos _ one_pos) (Nat.cast_pos.2 (by omega))
      have hbase : (0:ℚ) ≤ v
          * ((charsNeeded g).foldl (fun acc c => acc * letter_difficulty c) 1
              / (charsNeeded g).length)
          * (g.charsGuessed.length) :=
        mul_nonneg (mul_nonneg hvpos.le hApos.le) (Nat.cast_nonneg _)
      have hraw := rawScore_eval hget hn
      have hraw' := rawScore_eval (g := ⟨g.word, g.charsGuessed, g.turns - 1⟩) hget hgn'
      have hrec1 : charsNeeded (⟨g.word, g.charsGuessed, g.turns - 1⟩ : Game)
          = charsNeeded g := rfl
      have hrec2 : (⟨g.word, g.charsGuessed, g.turns - 1⟩ : Game).charsGuessed
          = g.charsGuessed := rfl
      rw [hexp, hrec1, hrec2] at hraw'
      refine ⟨?_, ?_⟩
      · rw [hraw, hraw', hsplit]
        have e1 : (JNum.fin (v
            * ((charsNeeded g).foldl (fun acc c => acc * letter_difficulty c) 1
                / (charsNeeded g).length)
            * (g.charsGuessed.length)
            * ((1/2 : ℚ) ^ (((g.turns : ℤ) - 1) - (g.charsGuessed.length : ℤ)) * (1/2))
            * 0.0001)) = jmul (jmul (.fin (v
            * ((charsNeeded g).foldl (fun acc c => acc * letter_difficulty c) 1
                / (charsNeeded g).length)
            * (g.charsGuessed.length)))
              (.fin ((1/2 : ℚ) ^ (((g.turns : ℤ) - 1) - (g.charsGuessed.length : ℤ)) * (1/2))))
              (.fin 0.0001) := rfl
        have e2 : (JNum.fin (v
            * ((charsNeeded g).foldl (fun acc c => acc * letter_difficulty c) 1
                / (charsNeeded g).length)
            * (g.charsGuessed.length)
            * ((1/2 : ℚ) ^ (((g.turns : ℤ) - 1) - (g.charsGuessed.length : ℤ)))
            * 0.0001)) = jmul (jmul (.fin (v
            * ((charsNeeded g).foldl (fun acc c => acc * letter_difficulty c) 1
                / (charsNeeded g).length)
            * (g.charsGuessed.length)))
              (.fin ((1/2 : ℚ) ^ (((g.turns : ℤ) - 1) - (g.charsGuessed.length : ℤ)))))
              (.fin 0.0001) := rfl
        rw [e1, e2,
          jmul_fin_pos_assoc _ (mul_pos hp'pos (by norm_num)) (by norm_num),
          jmul_fin_pos_assoc _ hp'pos (by norm_num),
          jmul_fin_pos_assoc _ (mul_pos hp'pos (by norm_num)) (by norm_num)]
        congr 1
        ring
      · rw [score_eq_fin_of hraw, score_eq_fin_of hraw']
        simp only [jltb]
        rw [decide_eq_false_iff_not, not_lt]
        have hple : ((1/2 : ℚ) ^ ((g.turns : ℤ) - (g.charsGuessed.length : ℤ)))
            ≤ ((1/2 : ℚ) ^ (((g.turns : ℤ) - 1) - (g.charsGuessed.length : ℤ))) := by
          rw [hsplit]
          linarith
        have hmul := mul_le_mul_of_nonneg_right
          (mul_le_mul_of_nonneg_left hple hbase) (by norm_num : (0:ℚ) ≤ 0.0001)
        have hfl := Int.floor_le_floor (add_le_add_right hmul (1/2 : ℚ))
        exact_mod_cast hfl

/-- **C8** (counterexample to strictness): on the word `"e"`, the game won
with one wrong guess and the game won without it BOTH round to score 0, so
the incorrect guess does not strictly lower the final score (it halves only
the raw score). The first three conjuncts show the failing input satisfies
the claim's hypotheses. -/
theorem wrong_guess_score_not_strictly_lower :
    Reachable ⟨"e", ['e'], 2⟩
    ∧ won ⟨"e", ['e'], 2⟩ = true
    ∧ (⟨"e", ['e'], 2⟩ : Game).charsGuessed.length < (⟨"e", ['e'], 2⟩ : Game).turns
    ∧ score ⟨"e", ['e'], 2⟩ = .fin 0
    ∧ score ⟨"e", ['e'], 1⟩ = .fin 0
    ∧ jltb (score ⟨"e", ['e'], 2⟩) (score ⟨"e", ['e'], 1⟩) = false := by
  have hr : Reachable ⟨"e", ['e'], 2⟩ :=
    Reachable.step "e" (Reachable.step "x" (Reachable.start "e") rfl) rfl
  have hraw2 := rawScore_eval (g := ⟨"e", ['e'], 2⟩) (v := 26) rfl (by decide)
  have hraw1 := rawScore_eval (g := ⟨"e", ['e'], 1⟩) (v := 26) rfl (by decide)
  have hne : charsNeeded (⟨"e", ['e'], 2⟩ : Game) = ['e'] := by decide
  have hne1 : charsNeeded (⟨"e", ['e'], 1⟩ : Game) = ['e'] := by decide
  rw [hne] at hraw2
  rw [hne1] at hraw1
  have hld : letter_difficulty 'e' = 7.87278 := rfl
  simp only [List.foldl_cons, List.foldl_nil, hld, List.length_cons,
    List.length_nil, List.length_singleton] at hraw2 hraw1
  norm_num at hraw2 hraw1
  have hs2 : score ⟨"e", ['e'], 2⟩ = .fin 0 := by
    rw [score_eq_fin_of hraw2]
    norm_num
  have hs1 : score ⟨"e", ['e'], 1⟩ = .fin 0 := by
    rw [score_eq_fin_of hraw1]
    norm_num
  refine ⟨hr, rfl, by decide, hs2, hs1, ?_⟩
  rw [hs2, hs1]
  simp [jltb]

/-- Witness for `wrong_guess_halves_raw_score`: the game on `"ab"` won in
three turns with one wrong guess (`'c'`, then `'a'`, then `'b'`). -/
theorem wrong_guess_halves_raw_score_witness :
    rawScore ⟨"ab", ['a', 'b'], 3⟩
      = jmul (rawScore ⟨"ab", ['a', 'b'], 2⟩) (.fin (1/2))
    ∧ jltb (score ⟨"ab", ['a', 'b'], 2⟩) (score ⟨"ab", ['a', 'b'], 3⟩) = false :=
  wrong_guess_halves_raw_score
    (Reachable.step "b" (Reachable.step "a"
      (Reachable.step "c" (Reachable.start "ab") rfl) rfl) rfl)
    (by decide) (by decide)

end Hangman
